import Mathlib

/-!
Shallow embedding of the knowledge-graph view of the Notes-App repository
(source: src/js/graph.js, class GraphView) together with proofs about it.

The embedding models:
  - the term extractor (extractKeyTerms, isCommonWord),
  - the graph builder (buildGraph: notebook traversal, color assignment,
    node creation, createEdges),
  - the force simulation step (simulate),
  - the viewport wheel-zoom handler (handleWheel),
  - hit-testing (getNodeAtPosition) and the pointer-up / pointer-leave
    handlers (handleMouseUp, handleMouseLeave).

JavaScript strings are modelled as Lean String / List Char (ASCII-faithful
for the character classes the code uses); JS numbers are modelled as
rationals where no square root occurs and as reals in the physics step;
JS Set insertion order is modelled by an insert-if-absent list append.
Scanners that mirror JS regular-expression global matching are written
with an explicit fuel argument equal to the input length (each step of the
scan consumes at least one character, so the fuel never runs out); this
keeps them kernel-computable.
-/

/-- A text fragment of a note (one entry of note.textBoxes in graph.js). -/
structure TextBox where
  content : String
deriving DecidableEq, Repr, Inhabited

/-- A note: id, display name, text fragments and nested child notes. -/
inductive Note where
  | mk (id : String) (name : String) (textBoxes : List TextBox) (children : List Note)

/-- A notebook: id, display name, its notes and nested sub-notebooks. -/
inductive Notebook where
  | mk (id : String) (name : String) (notes : List Note) (children : List Notebook)

def Note.id : Note → String
  | .mk i _ _ _ => i

def Note.name : Note → String
  | .mk _ n _ _ => n

def Note.textBoxes : Note → List TextBox
  | .mk _ _ t _ => t

def Note.children : Note → List Note
  | .mk _ _ _ c => c

def Notebook.id : Notebook → String
  | .mk i _ _ _ => i

def Notebook.name : Notebook → String
  | .mk _ n _ _ => n

def Notebook.notes : Notebook → List Note
  | .mk _ _ ns _ => ns

def Notebook.children : Notebook → List Notebook
  | .mk _ _ _ c => c

/-- JS whitespace characters relevant to the regex \s (ASCII part). -/
def jsIsWs (c : Char) : Bool :=
  c = ' ' || c = '\t' || c = '\n' || c = '\r' || c = '\x0b' || c = '\x0c'

/-- Model of String.prototype.toLowerCase on a character list. -/
def jsLower (cs : List Char) : List Char := cs.map Char.toLower

/-- Characters kept by the replacement replace(/[^a-z0-9]/g, ) in graph.js. -/
def isKeptAlnum (c : Char) : Bool :=
  ('a' ≤ c && c ≤ 'z') || ('0' ≤ c && c ≤ '9')

/-- Model of word.replace(/[^a-z0-9]/g, ): keep only lower-case ASCII
letters and digits. -/
def stripNonAlnum (cs : List Char) : List Char := cs.filter isKeptAlnum

/-- Accumulator pass splitting a character list into maximal non-whitespace
runs; models split(/\s+/) followed by discarding empty tokens (the empty
edge tokens that JS split can produce are all dropped later by the
length-greater-than-3 filters, so the resulting term sets agree). -/
def wordsOfAux : List Char → List Char → List (List Char)
  | [], cur => if cur = [] then [] else [cur.reverse]
  | c :: cs, cur =>
      if jsIsWs c then
        if cur = [] then wordsOfAux cs [] else cur.reverse :: wordsOfAux cs []
      else wordsOfAux cs (c :: cur)

/-- The whitespace-separated words of a character list. -/
def wordsOf (cs : List Char) : List (List Char) := wordsOfAux cs []

/-- Fuel-driven model of content.replace(/<[^>]*>/g, ' '): each maximal
< ... > group (no closing bracket inside) becomes one space; a < with no
later > is left as is. The fuel is the input length, which suffices since
every step consumes at least one character. -/
def tagStripGo : Nat → List Char → List Char
  | 0, cs => cs
  | _ + 1, [] => []
  | fuel + 1, '<' :: rest =>
      let tl := rest.dropWhile (· ≠ '>')
      if tl = [] then '<' :: tagStripGo fuel rest
      else ' ' :: tagStripGo fuel (tl.drop 1)
  | fuel + 1, c :: rest => c :: tagStripGo fuel rest

/-- Model of content.replace(/<[^>]*>/g, ' ') from extractKeyTerms. -/
def tagStrip (cs : List Char) : List Char := tagStripGo cs.length cs

/-- JS regex word character class \w, ASCII: letters, digits, underscore. -/
def isWordChar (c : Char) : Bool := c.isAlpha || c.isDigit || c = '_'

/-- Fuel-driven model of text.match(/#\w+/g): all non-overlapping hashtag
matches, returned without the leading # (the code takes substring(1)). -/
def hashtagBodiesGo : Nat → List Char → List (List Char)
  | 0, _ => []
  | _ + 1, [] => []
  | fuel + 1, '#' :: rest =>
      let body := rest.takeWhile isWordChar
      if body = [] then hashtagBodiesGo fuel rest
      else body :: hashtagBodiesGo fuel (rest.drop body.length)
  | fuel + 1, _ :: rest => hashtagBodiesGo fuel rest

/-- The hashtag bodies of a character list, in match order. -/
def hashtagBodies (cs : List Char) : List (List Char) :=
  hashtagBodiesGo cs.length cs

/-- Fuel-driven model of content.match(/\[\[([^\]]+)\]\]/g): each match is
returned whole, double brackets included, exactly as the JS match list
holds it. On a failed match attempt the scan advances one character, as
the regex engine does. -/
def wikiMatchesGo : Nat → List Char → List (List Char)
  | 0, _ => []
  | _ + 1, [] => []
  | fuel + 1, '[' :: '[' :: rest =>
      let body := rest.takeWhile (· ≠ ']')
      if body = [] then wikiMatchesGo fuel ('[' :: rest)
      else
        match rest.drop body.length with
        | ']' :: ']' :: after =>
            ('[' :: '[' :: body ++ [']', ']']) :: wikiMatchesGo fuel after
        | _ => wikiMatchesGo fuel ('[' :: rest)
  | fuel + 1, _ :: rest => wikiMatchesGo fuel rest

/-- The full wiki-link matches of a character list, in match order. -/
def wikiMatches (cs : List Char) : List (List Char) :=
  wikiMatchesGo cs.length cs

/-- Model of link.replace(/\[\[|\]\]/g, ): scan left to right and delete
every double-open or double-close bracket pair. -/
def removeMarkers : List Char → List Char
  | '[' :: '[' :: rest => removeMarkers rest
  | ']' :: ']' :: rest => removeMarkers rest
  | c :: rest => c :: removeMarkers rest
  | [] => []

/-- The stop-word list of isCommonWord in graph.js. -/
def commonWords : List String :=
  ["the", "and", "for", "that", "this", "with", "from", "have", "been",
   "were", "they", "their", "what", "when", "where", "which", "there",
   "will", "would", "could", "should", "about", "into", "over", "after",
   "before", "under", "between", "through", "during", "without", "also",
   "more", "some", "such", "only", "than", "then", "just", "being", "other"]

/-- Model of GraphView.isCommonWord. -/
def isCommonWord (w : String) : Bool := commonWords.contains w

/-- JS Set.add on an insertion-ordered list: append when absent. -/
def insertTerm (ts : List String) (s : String) : List String :=
  if s ∈ ts then ts else ts ++ [s]

/-- Model of GraphView.extractKeyTerms: term list of one note, in JS Set
insertion order. Name words pass a pre-strip length filter; text-fragment
words pass a post-strip length filter and the stop-word filter; hashtags
are scanned on the tag-stripped lower-cased text; wiki links are scanned
on the raw fragment. An empty content string is skipped because JS treats
it as falsy in the if (box.content) guard. -/
def extractKeyTerms (note : Note) : List String :=
  let nameWords := wordsOf (jsLower note.name.data)
  let t1 := nameWords.foldl (fun ts w =>
    if 3 < w.length then insertTerm ts (String.mk (stripNonAlnum w)) else ts) []
  note.textBoxes.foldl (fun ts box =>
    if box.content = "" then ts
    else
      let text := jsLower (tagStrip box.content.data)
      let ts1 := (wordsOf text).foldl (fun ts w =>
        let clean := stripNonAlnum w
        if 3 < clean.length ∧ isCommonWord (String.mk clean) = false then
          insertTerm ts (String.mk clean)
        else ts) ts
      let ts2 := (hashtagBodies text).foldl
        (fun ts b => insertTerm ts (String.mk b)) ts1
      (wikiMatches box.content.data).foldl (fun ts m =>
        insertTerm ts (String.mk (jsLower (removeMarkers m)))) ts2) t1

example :
    extractKeyTerms (.mk "n1" "Budget Planning 2024" [] []) =
      ["budget", "planning", "2024"] := by decide

example :
    extractKeyTerms (.mk "n1" "toe!" [] []) = ["toe"] := by decide

example :
    extractKeyTerms
      (.mk "n1" "" [⟨"see #Tag and [[Wiki Link]] now"⟩] []) =
      ["wiki", "link", "tag", "wiki link"] := by decide

/-- Insert a whole list of candidate terms in order. -/
def insertAll (ts : List String) (new : List String) : List String :=
  new.foldl insertTerm ts

/-- The note-name contribution to the term set, in token order: the code
filters on the raw token length and only then strips non-alphanumerics. -/
def nameContrib (note : Note) : List String :=
  (wordsOf (jsLower note.name.data)).filterMap fun w =>
    if 3 < w.length then some (String.mk (stripNonAlnum w)) else none

/-- The plain-word contribution of one (already tag-stripped, lower-cased)
fragment text: post-strip length filter plus stop-word filter. -/
def wordContrib (text : List Char) : List String :=
  (wordsOf text).filterMap fun w =>
    if 3 < (stripNonAlnum w).length ∧
        isCommonWord (String.mk (stripNonAlnum w)) = false then
      some (String.mk (stripNonAlnum w))
    else none

/-- All candidate terms contributed by one text fragment, in the order the
code inserts them: plain words, then hashtags (scanned on the stripped
lower-cased text), then wiki links (scanned on the raw content). -/
def boxContrib (box : TextBox) : List String :=
  if box.content = "" then []
  else
    wordContrib (jsLower (tagStrip box.content.data)) ++
      (hashtagBodies (jsLower (tagStrip box.content.data))).map String.mk ++
      (wikiMatches box.content.data).map
        (fun m => String.mk (jsLower (removeMarkers m)))

theorem mem_insertTerm {t s : String} {ts : List String} :
    t ∈ insertTerm ts s ↔ t ∈ ts ∨ t = s := by
  unfold insertTerm
  split
  · constructor
    · exact fun h => Or.inl h
    · rintro (h | rfl) <;> assumption
  · simp [or_comm]

theorem nodup_insertTerm {s : String} {ts : List String} (h : ts.Nodup) :
    (insertTerm ts s).Nodup := by
  unfold insertTerm
  split
  · exact h
  · simpa [List.nodup_append, h] using fun hmem => by simp_all

theorem mem_insertAll {t : String} {ts new : List String} :
    t ∈ insertAll ts new ↔ t ∈ ts ∨ t ∈ new := by
  induction new generalizing ts with
  | nil => simp [insertAll]
  | cons s rest ih =>
      show t ∈ insertAll (insertTerm ts s) rest ↔ _
      rw [ih, mem_insertTerm]
      simp [or_assoc]

theorem nodup_insertAll {ts new : List String} (h : ts.Nodup) :
    (insertAll ts new).Nodup := by
  induction new generalizing ts with
  | nil => exact h
  | cons s rest ih => exact ih (nodup_insertTerm h)

theorem foldl_guard_insert {α : Type} (p : α → Prop) [DecidablePred p]
    (g : α → String) (l : List α) (acc : List String) :
    l.foldl (fun ts w => if p w then insertTerm ts (g w) else ts) acc =
      insertAll acc (l.filterMap fun w => if p w then some (g w) else none) := by
  induction l generalizing acc with
  | nil => rfl
  | cons w rest ih =>
      simp only [List.foldl_cons, List.filterMap_cons]
      by_cases hw : p w
      · simp only [hw, if_pos]
        exact ih (insertTerm acc (g w))
      · simp only [hw, if_neg, not_false_iff]
        exact ih acc

theorem foldl_insert_map {α : Type} (g : α → String) (l : List α)
    (acc : List String) :
    l.foldl (fun ts w => insertTerm ts (g w)) acc =
      insertAll acc (l.map g) := by
  induction l generalizing acc with
  | nil => rfl
  | cons w rest ih =>
      simp only [List.foldl_cons, List.map_cons]
      exact ih (insertTerm acc (g w))

/-- The term extractor, reorganised: name contribution first, then each
fragment contribution in order, all through duplicate-dropping inserts. -/
theorem extractKeyTerms_eq (note : Note) :
    extractKeyTerms note =
      note.textBoxes.foldl (fun ts b => insertAll ts (boxContrib b))
        (insertAll [] (nameContrib note)) := by
  simp only [extractKeyTerms]
  rw [foldl_guard_insert (fun w : List Char => 3 < w.length)
    (fun w => String.mk (stripNonAlnum w))]
  show note.textBoxes.foldl _ _ = _
  congr 1
  funext ts box
  by_cases hc : box.content = ""
  · simp [hc, boxContrib, insertAll]
  · simp only [hc, if_neg, not_false_iff, boxContrib]
    rw [foldl_guard_insert
      (fun w : List Char => 3 < (stripNonAlnum w).length ∧
        isCommonWord (String.mk (stripNonAlnum w)) = false)
      (fun w => String.mk (stripNonAlnum w))]
    rw [foldl_insert_map String.mk]
    rw [foldl_insert_map (fun m => String.mk (jsLower (removeMarkers m)))]
    simp [insertAll, wordContrib]

theorem mem_extractKeyTerms {t : String} {note : Note} :
    t ∈ extractKeyTerms note ↔
      t ∈ nameContrib note ∨ ∃ b ∈ note.textBoxes, t ∈ boxContrib b := by
  rw [extractKeyTerms_eq]
  have main : ∀ (bs : List TextBox) (acc : List String),
      t ∈ bs.foldl (fun ts b => insertAll ts (boxContrib b)) acc ↔
        t ∈ acc ∨ ∃ b ∈ bs, t ∈ boxContrib b := by
    intro bs
    induction bs with
    | nil => simp
    | cons b rest ih =>
        intro acc
        simp only [List.foldl_cons]
        rw [ih, mem_insertAll]
        simp [or_assoc]
  rw [main]
  rw [mem_insertAll]
  simp

theorem nodup_extractKeyTerms (note : Note) : (extractKeyTerms note).Nodup := by
  rw [extractKeyTerms_eq]
  have main : ∀ (bs : List TextBox) (acc : List String), acc.Nodup →
      (bs.foldl (fun ts b => insertAll ts (boxContrib b)) acc).Nodup := by
    intro bs
    induction bs with
    | nil => exact fun acc h => h
    | cons b rest ih => exact fun acc h => ih _ (nodup_insertAll h)
  exact main _ _ (nodup_insertAll List.nodup_nil)

/-- C2 (amended): a note-name token is kept exactly when the raw token is
longer than 3 characters (its stripped form is what is added); a
text-fragment token is kept exactly when, after markup stripping,
lower-casing and punctuation stripping, it is longer than 3 characters
and not a stop word; hashtag and wiki-link bodies join the set; the
result has no duplicates, and membership depends only on which tokens,
hashtags and wiki links occur, not on their order. -/
theorem extractTerms_token_filters (note : Note) :
    (extractKeyTerms note).Nodup ∧
    ∀ t : String, t ∈ extractKeyTerms note ↔
      ((∃ w ∈ wordsOf (jsLower note.name.data),
          3 < w.length ∧ t = String.mk (stripNonAlnum w)) ∨
       ∃ box ∈ note.textBoxes, box.content ≠ "" ∧
         ((∃ w ∈ wordsOf (jsLower (tagStrip box.content.data)),
             3 < (stripNonAlnum w).length ∧
             isCommonWord (String.mk (stripNonAlnum w)) = false ∧
             t = String.mk (stripNonAlnum w)) ∨
          (∃ b ∈ hashtagBodies (jsLower (tagStrip box.content.data)),
             t = String.mk b) ∨
          (∃ m ∈ wikiMatches box.content.data,
             t = String.mk (jsLower (removeMarkers m))))) := by
  refine ⟨nodup_extractKeyTerms note, fun t => ?_⟩
  rw [mem_extractKeyTerms]
  have hname : t ∈ nameContrib note ↔
      ∃ w ∈ wordsOf (jsLower note.name.data),
        3 < w.length ∧ t = String.mk (stripNonAlnum w) := by
    simp only [nameContrib, List.mem_filterMap]
    constructor
    · rintro ⟨w, hw, hsome⟩
      by_cases h3 : 3 < w.length
      · exact ⟨w, hw, h3, by simp [h3] at hsome; exact hsome.symm⟩
      · simp [h3] at hsome
    · rintro ⟨w, hw, h3, rfl⟩
      exact ⟨w, hw, by simp [h3]⟩
  have hbox : ∀ box : TextBox, t ∈ boxContrib box ↔
      (box.content ≠ "" ∧
       ((∃ w ∈ wordsOf (jsLower (tagStrip box.content.data)),
           3 < (stripNonAlnum w).length ∧
           isCommonWord (String.mk (stripNonAlnum w)) = false ∧
           t = String.mk (stripNonAlnum w)) ∨
        (∃ b ∈ hashtagBodies (jsLower (tagStrip box.content.data)),
           t = String.mk b) ∨
        (∃ m ∈ wikiMatches box.content.data,
           t = String.mk (jsLower (removeMarkers m))))) := by
    intro box
    by_cases hc : box.content = ""
    · simp [boxContrib, hc]
    · simp only [boxContrib, hc, if_neg, not_false_iff, ne_eq, true_and,
        List.mem_append, List.mem_map, wordContrib, List.mem_filterMap]
      constructor
      · rintro ((⟨w, hw, hsome⟩ | ⟨b, hb, rfl⟩) | ⟨m, hm, rfl⟩)
        · by_cases hcond : 3 < (stripNonAlnum w).length ∧
              isCommonWord (String.mk (stripNonAlnum w)) = false
          · exact Or.inl ⟨w, hw, hcond.1, hcond.2,
              by simp [hcond] at hsome; exact hsome.symm⟩
          · simp [hcond] at hsome
        · exact Or.inr (Or.inl ⟨b, hb, rfl⟩)
        · exact Or.inr (Or.inr ⟨m, hm, rfl⟩)
      · rintro (⟨w, hw, h3, hcw, rfl⟩ | ⟨b, hb, rfl⟩ | ⟨m, hm, rfl⟩)
        · exact Or.inl (Or.inl ⟨w, hw, by simp [h3, hcw]⟩)
        · exact Or.inl (Or.inr ⟨b, hb, rfl⟩)
        · exact Or.inr ⟨m, hm, rfl⟩
  rw [hname]
  constructor
  · rintro (h | ⟨box, hbmem, hmem⟩)
    · exact Or.inl h
    · exact Or.inr ⟨box, hbmem, (hbox box).mp hmem⟩
  · rintro (h | ⟨box, hbmem, hne, hrest⟩)
    · exact Or.inl h
    · exact Or.inr ⟨box, hbmem, (hbox box).mpr ⟨hne, hrest⟩⟩

/-- C2 counterexample: the code keeps the name token toe! because its raw
length is 4, even though its stripped form toe has only 3 characters, so
the claimed post-strip length criterion rejects every token of this name
while the built term set is nonempty. -/
theorem extractTerms_pre_strip_cex :
    "toe" ∈ extractKeyTerms (.mk "n1" "toe!" [] []) ∧
      ∀ w ∈ wordsOf (jsLower ("toe!" : String).data),
        ¬ 3 < (stripNonAlnum w).length := by
  decide

/-- C4 (amended): for every nonempty text fragment, every hashtag body
found in the tag-stripped lower-cased fragment text and every normalized
wiki-link body found in the raw fragment is a member of the produced term
set. -/
theorem hashtag_wiki_terms_added (note : Note) (box : TextBox)
    (hb : box ∈ note.textBoxes) (hc : box.content ≠ "") :
    (∀ b ∈ hashtagBodies (jsLower (tagStrip box.content.data)),
        String.mk b ∈ extractKeyTerms note) ∧
    (∀ m ∈ wikiMatches box.content.data,
        String.mk (jsLower (removeMarkers m)) ∈ extractKeyTerms note) := by
  constructor
  · intro b hbdy
    rw [mem_extractKeyTerms]
    exact Or.inr ⟨box, hb, by
      simp only [boxContrib, hc, if_neg, not_false_iff, List.mem_append,
        List.mem_map]
      exact Or.inl (Or.inr ⟨b, hbdy, rfl⟩)⟩
  · intro m hm
    rw [mem_extractKeyTerms]
    exact Or.inr ⟨box, hb, by
      simp only [boxContrib, hc, if_neg, not_false_iff, List.mem_append,
        List.mem_map]
      exact Or.inr ⟨m, hm, rfl⟩⟩

/-- Witness for the amended C4 theorem at a concrete note. -/
theorem hashtag_wiki_terms_added_witness :
    ("tag" : String) ∈ extractKeyTerms (.mk "n1" "" [⟨"see #tag"⟩] []) := by
  have h := hashtag_wiki_terms_added (.mk "n1" "" [⟨"see #tag"⟩] [])
    ⟨"see #tag"⟩ (by decide) (by decide)
  exact h.1 ("tag" : String).data (by decide)

/-- C4 counterexample: in the fragment a<#tag>b the hashtag sits inside an
HTML tag; a scan of the raw pre-strip text finds it, but the code scans
the tag-stripped text, so the term is not extracted. -/
theorem hashtag_raw_scan_cex :
    "tag" ∈ (hashtagBodies ("a<#tag>b" : String).data).map
        (fun b => String.mk (jsLower b)) ∧
      "tag" ∉ extractKeyTerms (.mk "n1" "" [⟨"a<#tag>b"⟩] []) := by
  decide

instance : Inhabited Note := ⟨.mk "" "" [] []⟩

instance : Inhabited Notebook := ⟨.mk "" "" [] []⟩

/-- The fixed color palette (this.colors in the GraphView constructor). -/
def paletteColors : List String :=
  ["#8b5cf6", "#06b6d4", "#10b981", "#f59e0b",
   "#ef4444", "#ec4899", "#6366f1", "#14b8a6"]

/-- Lookup in the notebookColors map, modelled as an insertion-ordered
association list with unique keys. -/
def assocLookup : List (String × String) → String → Option String
  | [], _ => none
  | (k', v) :: rest, k => if k' = k then some v else assocLookup rest k

/-- One entry of the allNotes array of buildGraph: the note, the identity
of the notebook it was collected under, and the color looked up at push
time (None would be the JS undefined, which never occurs in practice). -/
structure BuildItem where
  note : Note
  notebookId : String
  notebookName : String
  color : Option String
deriving Inhabited

/-- The mutable build state of buildGraph: the notebookColors map, the
running colorIndex and the allNotes array. -/
structure BuildSt where
  colors : List (String × String)
  colorIndex : Nat
  allNotes : List BuildItem
deriving Inhabited

/-- Model of the collectNotes closure of buildGraph: push an item for each
note, then recurse into its children (when nonempty), then continue with
the remaining notes. The colors map is constant during one collect pass. -/
def collectNotes (colors : List (String × String)) (nbId nbName : String) :
    List Note → List BuildItem
  | [] => []
  | .mk i nm tb cs :: rest =>
      { note := .mk i nm tb cs, notebookId := nbId, notebookName := nbName,
        color := assocLookup colors nbId } ::
        ((if cs.length > 0 then collectNotes colors nbId nbName cs else []) ++
          collectNotes colors nbId nbName rest)

mutual

/-- Model of the processNotebook closure of buildGraph: assign a palette
color to the notebook at first encounter (advancing colorIndex), collect
its notes, then process its sub-notebooks recursively. -/
def processNotebook (st : BuildSt) : Notebook → BuildSt
  | .mk i nm notes children =>
      let st1 :=
        if assocLookup st.colors i = none then
          { st with
            colors := st.colors ++
              [(i, paletteColors.getD (st.colorIndex % paletteColors.length) "")],
            colorIndex := st.colorIndex + 1 }
        else st
      let st2 := { st1 with
        allNotes := st1.allNotes ++ collectNotes st1.colors i nm notes }
      processNotebooks st2 children

/-- forEach over a notebook list, threading the build state. -/
def processNotebooks (st : BuildSt) : List Notebook → BuildSt
  | [] => st
  | nb :: rest => processNotebooks (processNotebook st nb) rest

end

/-- The build state after processing all top-level notebooks, starting
from the empty maps the code resets at the top of buildGraph. -/
def initBuildSt : BuildSt := ⟨[], 0, []⟩

/-- A built graph node (position and velocity live in the simulation part
of the model; they are seeded with random jitter in the source and carry
no information the claims use). -/
structure NodeData where
  id : String
  label : String
  notebookId : String
  notebookName : String
  note : Note
  radius : ℚ
  color : Option String
  terms : List String
deriving Inhabited

/-- The node created for one allNotes item (the this.nodes.push call). -/
def mkNodeData (it : BuildItem) : NodeData :=
  { id := it.note.id, label := it.note.name, notebookId := it.notebookId,
    notebookName := it.notebookName, note := it.note, radius := 8,
    color := it.color, terms := extractKeyTerms it.note }

/-- The node list produced by buildGraph for a notebook forest. -/
def buildNodes (notebooks : List Notebook) : List NodeData :=
  (processNotebooks initBuildSt notebooks).allNotes.map mkNodeData

/-- An edge of the built graph; source and target are indices into the
node list (the source stores references to the node objects, which the
index model renders as positions in this.nodes). -/
structure EdgeData where
  source : Nat
  target : Nat
  sharedTerms : List String
  strength : ℚ
deriving DecidableEq, Inhabited

/-- nodeA.terms.filter(term means nodeB.terms.includes(term)). -/
def sharedTermsOf (a b : List String) : List String :=
  a.filter (fun t => b.contains t)

/-- Math.min(sharedTerms.length / 3, 1) over the rationals. -/
def strengthOf (n : Nat) : ℚ := min ((n : ℚ) / 3) 1

/-- Model of GraphView.createEdges: the double loop over index pairs
i < j, adding one edge for each pair with a nonempty shared-term list. -/
def createEdges (nodes : List NodeData) : List EdgeData :=
  (List.range nodes.length).flatMap fun i =>
    (List.range' (i + 1) (nodes.length - (i + 1))).filterMap fun j =>
      let nodeA := nodes.getD i default
      let nodeB := nodes.getD j default
      let shared := sharedTermsOf nodeA.terms nodeB.terms
      if shared.length > 0 then
        some { source := i, target := j, sharedTerms := shared,
               strength := strengthOf shared.length }
      else none

theorem mem_sharedTermsOf {t : String} {a b : List String} :
    t ∈ sharedTermsOf a b ↔ t ∈ a ∧ t ∈ b := by
  simp [sharedTermsOf]

theorem nodup_sharedTermsOf {a b : List String} (h : a.Nodup) :
    (sharedTermsOf a b).Nodup := h.filter _

theorem getD_mem_of_lt {α : Type} [Inhabited α] {l : List α} {i : Nat}
    (h : i < l.length) : l.getD i default ∈ l := by
  rw [List.getD_eq_getElem l default h]
  exact List.getElem_mem h

/-- Membership characterization of createEdges: the edges are exactly the
canonical records for the index pairs i < j with a nonempty shared-term
list. -/
theorem mem_createEdges {nodes : List NodeData} {e : EdgeData} :
    e ∈ createEdges nodes ↔
      ∃ i j, i < j ∧ j < nodes.length ∧
        0 < (sharedTermsOf (nodes.getD i default).terms
              (nodes.getD j default).terms).length ∧
        e = { source := i, target := j,
              sharedTerms := sharedTermsOf (nodes.getD i default).terms
                (nodes.getD j default).terms,
              strength := strengthOf (sharedTermsOf
                (nodes.getD i default).terms
                (nodes.getD j default).terms).length } := by
  unfold createEdges
  simp only [List.mem_flatMap, List.mem_filterMap, List.mem_range,
    List.mem_range'_1]
  constructor
  · rintro ⟨i, hi, j, hj, hfm⟩
    by_cases hpos : 0 < (sharedTermsOf (nodes.getD i default).terms
        (nodes.getD j default).terms).length
    · rw [if_pos hpos] at hfm
      exact ⟨i, j, by omega, by omega, hpos, (Option.some_inj.mp hfm).symm⟩
    · rw [if_neg hpos] at hfm
      exact absurd hfm (by simp)
  · rintro ⟨i, j, hij, hjlen, hpos, rfl⟩
    refine ⟨i, by omega, j, ⟨by omega, by omega⟩, ?_⟩
    rw [if_pos hpos]

theorem terms_nodup_of_mem_buildNodes {notebooks : List Notebook}
    {nd : NodeData} (h : nd ∈ buildNodes notebooks) : nd.terms.Nodup := by
  obtain ⟨it, _, rfl⟩ := List.mem_map.mp h
  exact nodup_extractKeyTerms it.note

/-- C1 (confirmed): in a built graph, an edge between two distinct nodes
exists if and only if their term sets intersect; there is at most one
edge per ordered index pair and every edge has source index strictly
below target index (so no self-edges and one edge per unordered pair);
each edge's shared-term list is exactly the set intersection of the two
endpoint term sets, without duplicates. -/
theorem build_edges_iff_shared (notebooks : List Notebook) :
    (∀ e ∈ createEdges (buildNodes notebooks),
        e.source < e.target ∧ e.target < (buildNodes notebooks).length) ∧
    (∀ i j : Nat, i < j → j < (buildNodes notebooks).length →
      ((∃ e ∈ createEdges (buildNodes notebooks),
          e.source = i ∧ e.target = j) ↔
        ∃ t, t ∈ ((buildNodes notebooks).getD i default).terms ∧
          t ∈ ((buildNodes notebooks).getD j default).terms)) ∧
    (∀ e₁ ∈ createEdges (buildNodes notebooks),
      ∀ e₂ ∈ createEdges (buildNodes notebooks),
        e₁.source = e₂.source → e₁.target = e₂.target → e₁ = e₂) ∧
    (∀ e ∈ createEdges (buildNodes notebooks),
        e.sharedTerms.Nodup ∧
        ∀ t, t ∈ e.sharedTerms ↔
          t ∈ ((buildNodes notebooks).getD e.source default).terms ∧
          t ∈ ((buildNodes notebooks).getD e.target default).terms) := by
  refine ⟨?bounds, ?iff, ?uniq, ?shared⟩
  case bounds =>
    intro e he
    obtain ⟨i, j, hij, hjlen, _, rfl⟩ := mem_createEdges.mp he
    exact ⟨hij, hjlen⟩
  case iff =>
    intro i j hij hjlen
    constructor
    · rintro ⟨e, he, hsrc, htgt⟩
      obtain ⟨i', j', _, _, hpos, rfl⟩ := mem_createEdges.mp he
      obtain ⟨t, ht⟩ := List.exists_mem_of_length_pos hpos
      have hi : i' = i := hsrc
      have hj : j' = j := htgt
      subst hi
      subst hj
      exact ⟨t, mem_sharedTermsOf.mp ht⟩
    · rintro ⟨t, hti, htj⟩
      have hpos : 0 < (sharedTermsOf ((buildNodes notebooks).getD i default).terms
          ((buildNodes notebooks).getD j default).terms).length :=
        List.length_pos.mpr (List.ne_nil_of_mem (mem_sharedTermsOf.mpr ⟨hti, htj⟩))
      exact ⟨_, mem_createEdges.mpr ⟨i, j, hij, hjlen, hpos, rfl⟩, rfl, rfl⟩
  case uniq =>
    intro e₁ h₁ e₂ h₂ hs ht
    obtain ⟨i₁, j₁, _, _, _, rfl⟩ := mem_createEdges.mp h₁
    obtain ⟨i₂, j₂, _, _, _, rfl⟩ := mem_createEdges.mp h₂
    have hi : i₁ = i₂ := hs
    have hj : j₁ = j₂ := ht
    subst hi
    subst hj
    rfl
  case shared =>
    intro e he
    obtain ⟨i, j, hij, hjlen, hpos, rfl⟩ := mem_createEdges.mp he
    constructor
    · exact nodup_sharedTermsOf
        (terms_nodup_of_mem_buildNodes (getD_mem_of_lt (by omega)))
    · intro t
      exact mem_sharedTermsOf

/-- Witness for C1 at the spec's Budget example: the two budget notes get
exactly one edge, found through the intersection criterion. -/
theorem build_edges_iff_shared_witness :
    ∃ e ∈ createEdges (buildNodes
      [.mk "nb1" "NB" [.mk "a" "Budget Planning 2024" [] [],
                       .mk "b" "Budget Review Meeting" [] []] []]),
      e.source = 0 ∧ e.target = 1 := by
  have h1 : extractKeyTerms (.mk "a" "Budget Planning 2024" [] []) =
      ["budget", "planning", "2024"] := by decide
  have h2 : extractKeyTerms (.mk "b" "Budget Review Meeting" [] []) =
      ["budget", "review", "meeting"] := by decide
  have hlen : (buildNodes
      [Notebook.mk "nb1" "NB" [.mk "a" "Budget Planning 2024" [] [],
                               .mk "b" "Budget Review Meeting" [] []] []]).length = 2 := by
    simp [buildNodes, processNotebooks, processNotebook, collectNotes,
      initBuildSt, assocLookup]
  have ht0 : ((buildNodes
      [Notebook.mk "nb1" "NB" [.mk "a" "Budget Planning 2024" [] [],
                               .mk "b" "Budget Review Meeting" [] []] []]).getD 0
        default).terms = ["budget", "planning", "2024"] := by
    simp [buildNodes, processNotebooks, processNotebook, collectNotes,
      initBuildSt, assocLookup, mkNodeData, h1]
  have ht1 : ((buildNodes
      [Notebook.mk "nb1" "NB" [.mk "a" "Budget Planning 2024" [] [],
                               .mk "b" "Budget Review Meeting" [] []] []]).getD 1
        default).terms = ["budget", "review", "meeting"] := by
    simp [buildNodes, processNotebooks, processNotebook, collectNotes,
      initBuildSt, assocLookup, mkNodeData, h2]
  refine ((build_edges_iff_shared
    [.mk "nb1" "NB" [.mk "a" "Budget Planning 2024" [] [],
                     .mk "b" "Budget Review Meeting" [] []] []]).2.1 0 1
    (by norm_num) (by rw [hlen]; norm_num)).mpr ?_
  refine ⟨"budget", ?_, ?_⟩
  · rw [ht0]
    decide
  · rw [ht1]
    decide

/-- C3 (confirmed): every built edge's strength equals min(count / 3, 1)
of its shared-term count; the formula is monotone non-decreasing, never
exceeds 1, equals 1/3 at one shared term and exactly 1 from three shared
terms on. -/
theorem edge_strength_min_formula (notebooks : List Notebook) :
    (∀ e ∈ createEdges (buildNodes notebooks),
        e.strength = strengthOf e.sharedTerms.length) ∧
    strengthOf 1 = 1 / 3 ∧
    (∀ m n : Nat, m ≤ n → strengthOf m ≤ strengthOf n) ∧
    (∀ n : Nat, 3 ≤ n → strengthOf n = 1) ∧
    (∀ n : Nat, strengthOf n ≤ 1) := by
  refine ⟨?_, ?_, ?_, ?_, ?_⟩
  · intro e he
    obtain ⟨i, j, _, _, _, rfl⟩ := mem_createEdges.mp he
    rfl
  · norm_num [strengthOf]
  · intro m n hmn
    unfold strengthOf
    have hq : (m : ℚ) / 3 ≤ (n : ℚ) / 3 := by
      gcongr
    exact min_le_min hq le_rfl
  · intro n h3
    have hq : (1 : ℚ) ≤ (n : ℚ) / 3 := by
      have hn : (3 : ℚ) ≤ (n : ℚ) := by exact_mod_cast h3
      linarith
    unfold strengthOf
    exact min_eq_right hq
  · intro n
    exact min_le_right _ _

/-- Witness for C3 at concrete shared-term counts. -/
theorem edge_strength_min_formula_witness :
    strengthOf 1 = 1 / 3 ∧ strengthOf 1 ≤ strengthOf 2 ∧ strengthOf 4 = 1 := by
  have h := edge_strength_min_formula []
  exact ⟨h.2.1, h.2.2.1 1 2 (by norm_num), h.2.2.2.1 4 (by norm_num)⟩

/-- The notes visited by one collectNotes pass, in visit order: each note
followed by its descendants, then the remaining notes. -/
def visitedOfNotes : List Note → List Note
  | [] => []
  | .mk i nm tb cs :: rest =>
      .mk i nm tb cs :: (visitedOfNotes cs ++ visitedOfNotes rest)

mutual

/-- The notes visited for one notebook: its direct notes (with nested
children), then its sub-notebooks depth-first. -/
def visitedOfNotebook : Notebook → List Note
  | .mk _ _ notes children => visitedOfNotes notes ++ visitedOfNotebooks children

/-- The notes visited for a notebook list, left to right. -/
def visitedOfNotebooks : List Notebook → List Note
  | [] => []
  | nb :: rest => visitedOfNotebook nb ++ visitedOfNotebooks rest

end

mutual

/-- Notebook ids in processNotebook encounter order: the notebook itself,
then its sub-notebooks depth-first. -/
def notebookIds : Notebook → List String
  | .mk i _ _ children => i :: notebookIdsL children

/-- Notebook ids of a notebook list in encounter order. -/
def notebookIdsL : List Notebook → List String
  | [] => []
  | nb :: rest => notebookIds nb ++ notebookIdsL rest

end

/-- The sublist of first occurrences of a string list, relative to a list
of already-seen strings. -/
def firstOccurFrom (seen : List String) : List String → List String
  | [] => []
  | x :: xs =>
      if x ∈ seen then firstOccurFrom seen xs
      else x :: firstOccurFrom (x :: seen) xs

theorem firstOccurFrom_congr {s₁ s₂ : List String}
    (h : ∀ y, y ∈ s₁ ↔ y ∈ s₂) :
    ∀ l : List String, firstOccurFrom s₁ l = firstOccurFrom s₂ l := by
  intro l
  induction l generalizing s₁ s₂ with
  | nil => rfl
  | cons x xs ih =>
      by_cases hx : x ∈ s₁
      · rw [firstOccurFrom, firstOccurFrom, if_pos hx, if_pos ((h x).mp hx)]
        exact ih h
      · rw [firstOccurFrom, firstOccurFrom, if_neg hx,
          if_neg (fun hc => hx ((h x).mpr hc))]
        refine congrArg (x :: ·) (ih fun y => ?_)
        simp only [List.mem_cons]
        exact or_congr Iff.rfl (h y)

theorem firstOccurFrom_append (l₁ l₂ : List String) :
    ∀ s, firstOccurFrom s (l₁ ++ l₂) =
      firstOccurFrom s l₁ ++
        firstOccurFrom (firstOccurFrom s l₁ ++ s) l₂ := by
  induction l₁ with
  | nil =>
      intro s
      simp [firstOccurFrom]
  | cons x xs ih =>
      intro s
      by_cases hx : x ∈ s
      · rw [List.cons_append, firstOccurFrom, if_pos hx, firstOccurFrom,
          if_pos hx]
        exact ih s
      · rw [List.cons_append, firstOccurFrom, if_neg hx, firstOccurFrom,
          if_neg hx, ih (x :: s), List.cons_append]
        refine congrArg (fun r => x :: (firstOccurFrom (x :: s) xs ++ r))
          (firstOccurFrom_congr (fun y => ?_) l₂)
        simp only [List.mem_append, List.mem_cons]
        tauto

theorem mem_firstOccurFrom {y : String} :
    ∀ {s l : List String}, y ∈ firstOccurFrom s l ↔ y ∈ l ∧ y ∉ s := by
  intro s l
  induction l generalizing s with
  | nil => simp [firstOccurFrom]
  | cons x xs ih =>
      by_cases hx : x ∈ s
      · rw [firstOccurFrom, if_pos hx, ih]
        simp only [List.mem_cons]
        constructor
        · rintro ⟨hy, hns⟩
          exact ⟨Or.inr hy, hns⟩
        · rintro ⟨hy | hy, hns⟩
          · exact absurd hx (hy ▸ hns)
          · exact ⟨hy, hns⟩
      · rw [firstOccurFrom, if_neg hx]
        simp only [List.mem_cons, ih]
        by_cases hyx : y = x
        · subst hyx
          simp [hx]
        · tauto

theorem assocLookup_none_iff {m : List (String × String)} {k : String} :
    assocLookup m k = none ↔ k ∉ m.map Prod.fst := by
  induction m with
  | nil => simp [assocLookup]
  | cons e rest ih =>
      obtain ⟨k', v⟩ := e
      by_cases he : k' = k
      · simp [assocLookup, he]
      · simp [assocLookup, he, ih, Ne.symm he]

theorem assocLookup_append_of_some {m d : List (String × String)}
    {k : String} {c : String} (h : assocLookup m k = some c) :
    assocLookup (m ++ d) k = some c := by
  induction m with
  | nil => simp [assocLookup] at h
  | cons e rest ih =>
      obtain ⟨k', v⟩ := e
      by_cases he : k' = k
      · simp only [assocLookup, he, if_pos] at h ⊢
        exact h
      · simp only [List.cons_append, assocLookup, he, if_neg,
          not_false_iff] at h ⊢
        exact ih h

theorem assocLookup_append_self {m : List (String × String)} {k v : String}
    (h : assocLookup m k = none) :
    assocLookup (m ++ [(k, v)]) k = some v := by
  induction m with
  | nil => simp [assocLookup]
  | cons e rest ih =>
      obtain ⟨k', v'⟩ := e
      by_cases he : k' = k
      · simp [assocLookup, he] at h
      · simp only [assocLookup, he, if_neg, not_false_iff,
          List.cons_append] at h ⊢
        exact ih h

/-- Invariant of the notebookColors map: colorIndex counts the entries
and the k-th assigned color is the palette entry k modulo palette size. -/
def ColorInv (st : BuildSt) : Prop :=
  st.colorIndex = st.colors.length ∧
  ∀ k, k < st.colors.length →
    (st.colors.getD k default).2 =
      paletteColors.getD (k % paletteColors.length) ""

/-- What a traversal step does to the build state, relative to the
notebook ids it encounters and the notes it visits: new color entries are
appended exactly for the first-encountered ids, the palette invariant is
preserved, and one item per visited note is appended whose stored color
is the looked-up color of its immediate notebook. -/
def BuildStep (st st' : BuildSt) (ids : List String) (vis : List Note) :
    Prop :=
  st'.colors.map Prod.fst =
      st.colors.map Prod.fst ++
        firstOccurFrom (st.colors.map Prod.fst) ids ∧
  (∃ d, st'.colors = st.colors ++ d) ∧
  (ColorInv st → ColorInv st') ∧
  ∃ items, st'.allNotes = st.allNotes ++ items ∧
    items.map BuildItem.note = vis ∧
    ∀ it ∈ items, ∃ c, it.color = some c ∧
      assocLookup st'.colors it.notebookId = some c

theorem collectNotes_spec (colors : List (String × String))
    (nbId nbName : String) (notes : List Note) :
    (collectNotes colors nbId nbName notes).map BuildItem.note =
        visitedOfNotes notes ∧
    ∀ it ∈ collectNotes colors nbId nbName notes,
      it.notebookId = nbId ∧ it.color = assocLookup colors nbId := by
  refine collectNotes.induct colors nbId nbName
    (fun ns => (collectNotes colors nbId nbName ns).map BuildItem.note =
        visitedOfNotes ns ∧
      ∀ it ∈ collectNotes colors nbId nbName ns,
        it.notebookId = nbId ∧ it.color = assocLookup colors nbId)
    ?nil ?cons notes
  case nil => simp [collectNotes, visitedOfNotes]
  case cons =>
    intro i nm tb cs rest ihcs ihrest
    have hif : (if cs.length > 0 then collectNotes colors nbId nbName cs
        else []) = collectNotes colors nbId nbName cs := by
      by_cases hcs : cs.length > 0
      · rw [if_pos hcs]
      · rw [if_neg hcs]
        have : cs = [] := List.length_eq_zero.mp (by omega)
        subst this
        simp [collectNotes]
    constructor
    · rw [collectNotes, hif, visitedOfNotes]
      simp only [List.map_cons, List.map_append, ihcs.1, ihrest.1]
    · intro it hit
      rw [collectNotes, hif] at hit
      rcases List.mem_cons.mp hit with rfl | hit'
      · exact ⟨rfl, rfl⟩
      · rcases List.mem_append.mp hit' with h | h
        · exact ihcs.2 it h
        · exact ihrest.2 it h

theorem BuildStep_refl (st : BuildSt) : BuildStep st st [] [] :=
  ⟨by simp [firstOccurFrom], ⟨[], by simp⟩, id, [], by simp, rfl, by simp⟩

theorem BuildStep_trans {st mid fin : BuildSt} {ids₁ ids₂ : List String}
    {vis₁ vis₂ : List Note} (h₁ : BuildStep st mid ids₁ vis₁)
    (h₂ : BuildStep mid fin ids₂ vis₂) :
    BuildStep st fin (ids₁ ++ ids₂) (vis₁ ++ vis₂) := by
  obtain ⟨hmap₁, ⟨d₁, hd₁⟩, hinv₁, items₁, hall₁, hvis₁, hcol₁⟩ := h₁
  obtain ⟨hmap₂, ⟨d₂, hd₂⟩, hinv₂, items₂, hall₂, hvis₂, hcol₂⟩ := h₂
  refine ⟨?_, ⟨d₁ ++ d₂, by rw [hd₂, hd₁, List.append_assoc]⟩,
    fun h => hinv₂ (hinv₁ h), items₁ ++ items₂,
    by rw [hall₂, hall₁, List.append_assoc],
    by rw [List.map_append, hvis₁, hvis₂], ?_⟩
  · rw [hmap₂, hmap₁, firstOccurFrom_append, ← List.append_assoc]
    refine congrArg _ (firstOccurFrom_congr (fun y => ?_) ids₂)
    simp only [List.mem_append]
    tauto
  · intro it hit
    rcases List.mem_append.mp hit with h | h
    · obtain ⟨c, hc, hl⟩ := hcol₁ it h
      exact ⟨c, hc, by rw [hd₂]; exact assocLookup_append_of_some hl⟩
    · exact hcol₂ it h

theorem BuildStep_assign_collect (st : BuildSt) (i nm : String)
    (notes : List Note) (st1 : BuildSt)
    (h1 : st1 = if assocLookup st.colors i = none then
        { st with
          colors := st.colors ++ [(i, paletteColors.getD (st.colorIndex % paletteColors.length) "")],
          colorIndex := st.colorIndex + 1 }
      else st) :
    BuildStep st
      { st1 with allNotes := st1.allNotes ++ collectNotes st1.colors i nm notes }
      [i] (visitedOfNotes notes) := by
  have hcoll := collectNotes_spec st1.colors i nm notes
  by_cases hlook : assocLookup st.colors i = none
  · rw [if_pos hlook] at h1
    have hmem : i ∉ st.colors.map Prod.fst := assocLookup_none_iff.mp hlook
    have hc1 : st1.colors = st.colors ++
        [(i, paletteColors.getD (st.colorIndex % paletteColors.length) "")] := by
      rw [h1]
    have hlook1 : assocLookup st1.colors i =
        some (paletteColors.getD (st.colorIndex % paletteColors.length) "") := by
      rw [hc1]
      exact assocLookup_append_self hlook
    refine ⟨?_, ⟨_, hc1⟩, ?_, collectNotes st1.colors i nm notes, by rw [h1], hcoll.1, ?_⟩
    · rw [hc1, List.map_append]
      simp [firstOccurFrom, hmem]
    · rintro ⟨hidx, hpal⟩
      constructor
      · rw [h1]
        simp [hidx]
      · intro k hk
        rw [hc1] at hk ⊢
        simp only [List.length_append, List.length_singleton] at hk
        by_cases hkl : k < st.colors.length
        · rw [List.getD_append _ _ _ _ hkl]
          exact hpal k hkl
        · have hke : k = st.colors.length := by omega
          subst hke
          rw [List.getD_append_right _ _ _ _ (le_refl _), Nat.sub_self]
          simp only [List.getD_cons_zero]
          rw [hidx]
    · intro it hit
      obtain ⟨hid, hcol⟩ := hcoll.2 it hit
      exact ⟨_, by rw [hcol, hlook1], by rw [hid, hlook1]⟩
  · rw [if_neg hlook] at h1
    rw [h1] at hcoll ⊢
    obtain ⟨c, hc⟩ := Option.ne_none_iff_exists'.mp hlook
    have hmem : i ∈ st.colors.map Prod.fst := by
      by_contra hmem
      exact hlook (assocLookup_none_iff.mpr hmem)
    refine ⟨?_, ⟨[], by simp⟩, fun h => h,
      collectNotes st.colors i nm notes, rfl, hcoll.1, ?_⟩
    · simp [firstOccurFrom, hmem]
    · intro it hit
      obtain ⟨hid, hcol⟩ := hcoll.2 it hit
      exact ⟨c, by rw [hcol, hc], by rw [hid, hc]⟩

theorem processNotebooks_spec (st : BuildSt) (nbs : List Notebook) :
    BuildStep st (processNotebooks st nbs) (notebookIdsL nbs)
      (visitedOfNotebooks nbs) := by
  refine processNotebooks.induct
    (fun st nb => BuildStep st (processNotebook st nb) (notebookIds nb)
      (visitedOfNotebook nb))
    (fun st nbs => BuildStep st (processNotebooks st nbs) (notebookIdsL nbs)
      (visitedOfNotebooks nbs))
    ?hnb ?hnil ?hcons st nbs
  case hnb =>
    intro st i nm notes children
    intro st1 st2 ih
    have heq : processNotebook st (.mk i nm notes children) =
        processNotebooks st2 children := by
      rw [processNotebook]
    rw [heq, notebookIds, visitedOfNotebook]
    have hstep : BuildStep st st2 [i] (visitedOfNotes notes) :=
      BuildStep_assign_collect st i nm notes st1 rfl
    have := BuildStep_trans hstep ih
    simpa using this
  case hnil =>
    intro st
    rw [processNotebooks, notebookIdsL, visitedOfNotebooks]
    exact BuildStep_refl st
  case hcons =>
    intro st nb rest ih₁ ih₂
    rw [processNotebooks, notebookIdsL, visitedOfNotebooks]
    exact BuildStep_trans ih₁ ih₂

/-- C5 (amended): buildGraph creates exactly one node per visited note,
in traversal order; a node's color is the color assigned to its immediate
containing notebook (a nested sub-notebook receives its own palette
color, not the enclosing top-level notebook's); colors are assigned from
the fixed palette in traversal order of first encounter over all
notebooks, nested ones included, cycling when the palette is
exhausted. -/
theorem build_nodes_and_colors (notebooks : List Notebook) :
    (buildNodes notebooks).map NodeData.note = visitedOfNotebooks notebooks ∧
    (processNotebooks initBuildSt notebooks).colors.map Prod.fst =
      firstOccurFrom [] (notebookIdsL notebooks) ∧
    (∀ k, k < (processNotebooks initBuildSt notebooks).colors.length →
      ((processNotebooks initBuildSt notebooks).colors.getD k default).2 =
        paletteColors.getD (k % paletteColors.length) "") ∧
    ∀ nd ∈ buildNodes notebooks, ∃ c, nd.color = some c ∧
      assocLookup (processNotebooks initBuildSt notebooks).colors
        nd.notebookId = some c := by
  obtain ⟨hmap, _, hinv, items, hall, hvis, hcol⟩ :=
    processNotebooks_spec initBuildSt notebooks
  have hallE : (processNotebooks initBuildSt notebooks).allNotes = items := by
    simpa [initBuildSt] using hall
  refine ⟨?_, ?_, ?_, ?_⟩
  · rw [buildNodes, hallE, List.map_map]
    exact hvis
  · simpa [initBuildSt] using hmap
  · exact (hinv ⟨rfl, fun k hk => absurd hk (by simp [initBuildSt])⟩).2
  · intro nd hnd
    rw [buildNodes, hallE] at hnd
    obtain ⟨it, hit, rfl⟩ := List.mem_map.mp hnd
    obtain ⟨c, hc, hl⟩ := hcol it hit
    exact ⟨c, hc, hl⟩

/-- Witness for C5 at a concrete nested forest: the single node's stored
color is the color the final map assigns to its immediate notebook. -/
theorem build_nodes_and_colors_witness :
    ∃ c, ((buildNodes [.mk "nb1" "Top" []
        [.mk "nb2" "Sub" [.mk "a" "Alpha" [] []] []]]).getD 0
          default).color = some c ∧
      assocLookup (processNotebooks initBuildSt [.mk "nb1" "Top" []
        [.mk "nb2" "Sub" [.mk "a" "Alpha" [] []] []]]).colors "nb2" =
        some c := by
  have h := build_nodes_and_colors
    [.mk "nb1" "Top" [] [.mk "nb2" "Sub" [.mk "a" "Alpha" [] []] []]]
  have hlen : (buildNodes [Notebook.mk "nb1" "Top" []
      [.mk "nb2" "Sub" [.mk "a" "Alpha" [] []] []]]).length = 1 := by
    simp [buildNodes, processNotebooks, processNotebook, collectNotes,
      initBuildSt, assocLookup]
  have hmem := getD_mem_of_lt
    (l := buildNodes [Notebook.mk "nb1" "Top" []
      [.mk "nb2" "Sub" [.mk "a" "Alpha" [] []] []]]) (i := 0)
    (by rw [hlen]; norm_num)
  obtain ⟨c, hc, hl⟩ := h.2.2.2 _ hmem
  have hid : ((buildNodes [Notebook.mk "nb1" "Top" []
      [.mk "nb2" "Sub" [.mk "a" "Alpha" [] []] []]]).getD 0
        default).notebookId = "nb2" := by
    simp [buildNodes, processNotebooks, processNotebook, collectNotes,
      initBuildSt, assocLookup, mkNodeData]
  rw [hid] at hl
  exact ⟨c, hc, hl⟩

/-- C5 counterexample: a note inside a nested sub-notebook receives the
sub-notebook's own palette color (the second palette entry), not the
color assigned to its owning top-level notebook (the first entry). -/
theorem node_color_not_top_level_cex :
    ((buildNodes [.mk "nb1" "Top" []
        [.mk "nb2" "Sub" [.mk "a" "Alpha" [] []] []]]).getD 0
          default).color = some "#06b6d4" ∧
    assocLookup (processNotebooks initBuildSt [.mk "nb1" "Top" []
        [.mk "nb2" "Sub" [.mk "a" "Alpha" [] []] []]]).colors "nb1" =
      some "#8b5cf6" ∧
    ((buildNodes [.mk "nb1" "Top" []
        [.mk "nb2" "Sub" [.mk "a" "Alpha" [] []] []]]).getD 0
          default).color ≠ some "#8b5cf6" := by
  have h1 : ((buildNodes [Notebook.mk "nb1" "Top" []
      [.mk "nb2" "Sub" [.mk "a" "Alpha" [] []] []]]).getD 0
        default).color = some "#06b6d4" := by
    simp [buildNodes, processNotebooks, processNotebook, collectNotes,
      initBuildSt, assocLookup, mkNodeData, paletteColors]
  refine ⟨h1, ?_, ?_⟩
  · simp [processNotebooks, processNotebook, collectNotes, initBuildSt,
      assocLookup, paletteColors]
  · rw [h1]
    decide

/-- A simulation node: position and velocity in graph space.  JS floating
point is modelled over the reals. -/
structure SimNode where
  x : ℝ
  y : ℝ
  vx : ℝ
  vy : ℝ

instance : Inhabited SimNode := ⟨⟨0, 0, 0, 0⟩⟩

/-- An edge as the simulation reads it: endpoint indices into the node
array and the edge strength. -/
structure SimEdge where
  source : Nat
  target : Nat
  strength : ℝ

/-- The physics parameters of this.simulation. -/
structure SimParams where
  friction : ℝ
  repulsion : ℝ
  attraction : ℝ
  centerGravity : ℝ
  linkDistance : ℝ

/-- The parameter values set in the GraphView constructor. -/
noncomputable def defaultParams : SimParams :=
  { friction := 0.9, repulsion := 500, attraction := 0.01,
    centerGravity := 0.02, linkDistance := 120 }

/-- Model of dist = Math.sqrt(dx*dx + dy*dy) || 1 in the repulsion loop:
a zero distance (coincident nodes) is replaced by 1, because 0 is falsy
in JS. -/
noncomputable def jsDist1 (dx dy : ℝ) : ℝ :=
  if Real.sqrt (dx * dx + dy * dy) = 0 then 1
  else Real.sqrt (dx * dx + dy * dy)

/-- One node's force accumulation (center gravity, capped-range
repulsion, over-rest-length spring attraction) and velocity and position
integration, exactly the body of the forEach in simulate.  The array ns
is the state the loop currently sees: earlier indices hold already
updated nodes, because the source mutates this.nodes in place. -/
noncomputable def stepNode (p : SimParams) (edges : List SimEdge)
    (center : ℝ × ℝ) (ns : List SimNode) (i : Nat) : SimNode :=
  let node := ns.getD i default
  let a0 : ℝ × ℝ :=
    ((center.1 - node.x) * p.centerGravity,
     (center.2 - node.y) * p.centerGravity)
  let a1 : ℝ × ℝ := (List.range ns.length).foldl (fun a j =>
    if j = i then a
    else
      let other := ns.getD j default
      let dx := node.x - other.x
      let dy := node.y - other.y
      let dist := jsDist1 dx dy
      if dist < 200 then
        let force := p.repulsion / (dist * dist)
        (a.1 + dx / dist * force, a.2 + dy / dist * force)
      else a) a0
  let a2 : ℝ × ℝ := edges.foldl (fun a e =>
    let other? : Option Nat :=
      if e.source = i then some e.target
      else if e.target = i then some e.source else none
    match other? with
    | none => a
    | some j =>
        let other := ns.getD j default
        let dx := other.x - node.x
        let dy := other.y - node.y
        let dist := Real.sqrt (dx * dx + dy * dy)
        if p.linkDistance < dist then
          let force := (dist - p.linkDistance) * p.attraction * e.strength
          (a.1 + dx / dist * force, a.2 + dy / dist * force)
        else a) a1
  let vx := (node.vx + a2.1) * p.friction
  let vy := (node.vy + a2.2) * p.friction
  { x := node.x + vx, y := node.y + vy, vx := vx, vy := vy }

/-- One whole simulate frame: sequential in-place update of every node,
skipping the dragged one. -/
noncomputable def stepAll (p : SimParams) (edges : List SimEdge)
    (drag : Option Nat) (center : ℝ × ℝ) (nodes : List SimNode) :
    List SimNode :=
  (List.range nodes.length).foldl (fun ns i =>
    if drag = some i then ns
    else ns.set i (stepNode p edges center ns i)) nodes

/-- The total absolute velocity that simulate sums after a frame. -/
noncomputable def totalVelocity (nodes : List SimNode) : ℝ :=
  nodes.foldl (fun s n => s + |n.vx| + |n.vy|) 0

/-- The node state after one call of simulate: no change when the running
flag is clear, one stepAll frame otherwise. -/
noncomputable def simulateFrame (p : SimParams) (edges : List SimEdge)
    (drag : Option Nat) (center : ℝ × ℝ) (running : Bool)
    (nodes : List SimNode) : List SimNode :=
  if running = false then nodes else stepAll p edges drag center nodes

/-- Whether simulate schedules a further animation frame: it must have
run (flag set) and the total absolute velocity after the update must
exceed the 0.1 threshold. -/
def simulateSchedules (p : SimParams) (edges : List SimEdge)
    (drag : Option Nat) (center : ℝ × ℝ) (running : Bool)
    (nodes : List SimNode) : Prop :=
  running = true ∧
    0.1 < totalVelocity (stepAll p edges drag center nodes)

/-- C6 (confirmed): after a frame run with the running flag set, a
further frame is scheduled exactly when the summed absolute velocities of
the updated nodes exceed the fixed 0.1 threshold; a cleared flag
schedules nothing; build on an empty notebook forest returns empty node
and edge lists, and the simulation frame run on that empty graph
schedules no follow-up frame. -/
theorem simulate_schedules_iff (p : SimParams) (edges : List SimEdge)
    (drag : Option Nat) (center : ℝ × ℝ) (nodes : List SimNode) :
    (simulateSchedules p edges drag center true nodes ↔
      0.1 < totalVelocity (simulateFrame p edges drag center true nodes)) ∧
    (¬ simulateSchedules p edges drag center false nodes) ∧
    buildNodes [] = [] ∧
    createEdges (buildNodes []) = [] ∧
    ¬ simulateSchedules defaultParams [] none center true [] := by
  have hempty : buildNodes [] = [] := by
    simp [buildNodes, processNotebooks, initBuildSt]
  refine ⟨?_, ?_, hempty, ?_, ?_⟩
  · simp [simulateSchedules, simulateFrame]
  · simp [simulateSchedules]
  · rw [hempty]
    simp [createEdges]
  · simp only [simulateSchedules, stepAll, totalVelocity, List.length_nil,
      List.range_zero, List.foldl_nil, true_and, not_lt]
    norm_num

/-- C10 (confirmed): the per-frame force computation never divides by
zero: the repulsion distance of two coincident nodes is 1 rather than 0,
the repulsion distance is always strictly positive, and the attraction
term divides by the distance only under its guard that the distance
exceeds the rest length 120, which is positive. -/
theorem forces_no_div_by_zero :
    (∀ n m : SimNode, n.x = m.x → n.y = m.y →
      jsDist1 (n.x - m.x) (n.y - m.y) = 1) ∧
    (∀ dx dy : ℝ, 0 < jsDist1 dx dy) ∧
    0 < defaultParams.linkDistance ∧
    (∀ dx dy : ℝ,
      defaultParams.linkDistance < Real.sqrt (dx * dx + dy * dy) →
      0 < Real.sqrt (dx * dx + dy * dy)) := by
  refine ⟨?_, ?_, ?_, ?_⟩
  · intro n m hx hy
    rw [hx, hy]
    simp [jsDist1]
  · intro dx dy
    unfold jsDist1
    split
    · norm_num
    · rename_i h
      exact lt_of_le_of_ne (Real.sqrt_nonneg _) (Ne.symm h)
  · norm_num [defaultParams]
  · intro dx dy h
    calc (0 : ℝ) < defaultParams.linkDistance := by norm_num [defaultParams]
      _ < _ := h

/-- Witness for C10: coincident nodes at (1, 2) give repulsion distance
1, and the distance of the offset (3, 4) is positive. -/
theorem forces_no_div_by_zero_witness :
    jsDist1 ((⟨1, 2, 0, 0⟩ : SimNode).x - (⟨1, 2, 3, 4⟩ : SimNode).x)
      ((⟨1, 2, 0, 0⟩ : SimNode).y - (⟨1, 2, 3, 4⟩ : SimNode).y) = 1 ∧
    0 < jsDist1 3 4 := by
  have h := forces_no_div_by_zero
  exact ⟨h.1 ⟨1, 2, 0, 0⟩ ⟨1, 2, 3, 4⟩ rfl rfl, h.2.1 3 4⟩

/-- The graph viewport: zoom scale and pan offset. -/
structure Viewport where
  zoom : ℚ
  offsetX : ℚ
  offsetY : ℚ

/-- Model of GraphView.handleWheel: multiply the zoom by 0.9 (wheel down)
or 1.1 (wheel up), clamp it to the range from 0.2 to 3, and shift the
offset so the graph point under the mouse keeps its screen position. -/
def handleWheel (v : Viewport) (deltaY mouseX mouseY : ℚ) : Viewport :=
  let zoomFactor : ℚ := if 0 < deltaY then 9 / 10 else 11 / 10
  let newZoom := max (1 / 5) (min 3 (v.zoom * zoomFactor))
  let zoomChange := newZoom / v.zoom
  { zoom := newZoom,
    offsetX := mouseX - (mouseX - v.offsetX) * zoomChange,
    offsetY := mouseY - (mouseY - v.offsetY) * zoomChange }

/-- The graph-space point under a screen position (getMousePos). -/
def toGraphSpace (v : Viewport) (sx sy : ℚ) : ℚ × ℚ :=
  ((sx - v.offsetX) / v.zoom, (sy - v.offsetY) / v.zoom)

/-- The screen position of a graph-space point under a viewport (the
translate-then-scale canvas transform of render). -/
def toScreen (v : Viewport) (gx gy : ℚ) : ℚ × ℚ :=
  (gx * v.zoom + v.offsetX, gy * v.zoom + v.offsetY)

/-- C7 (confirmed): a wheel event sets the zoom to the old zoom times the
fixed factor clamped to the range from 0.2 to 3, updates the offset by
offset = mouse minus (mouse minus offset) times the zoom ratio, and the
graph-space point that was under the pointer maps back exactly to the
pointer's screen position, also when clamping takes effect. -/
theorem wheel_zoom_anchor (v : Viewport) (deltaY mouseX mouseY : ℚ)
    (hz : 0 < v.zoom) :
    (handleWheel v deltaY mouseX mouseY).zoom =
      max (1 / 5) (min 3 (v.zoom *
        (if 0 < deltaY then 9 / 10 else 11 / 10))) ∧
    (handleWheel v deltaY mouseX mouseY).offsetX =
      mouseX - (mouseX - v.offsetX) *
        ((handleWheel v deltaY mouseX mouseY).zoom / v.zoom) ∧
    (handleWheel v deltaY mouseX mouseY).offsetY =
      mouseY - (mouseY - v.offsetY) *
        ((handleWheel v deltaY mouseX mouseY).zoom / v.zoom) ∧
    1 / 5 ≤ (handleWheel v deltaY mouseX mouseY).zoom ∧
    (handleWheel v deltaY mouseX mouseY).zoom ≤ 3 ∧
    toScreen (handleWheel v deltaY mouseX mouseY)
      (toGraphSpace v mouseX mouseY).1 (toGraphSpace v mouseX mouseY).2 =
      (mouseX, mouseY) := by
  have hne : v.zoom ≠ 0 := ne_of_gt hz
  refine ⟨rfl, rfl, rfl, le_max_left _ _, ?_, ?_⟩
  · exact max_le (by norm_num) (min_le_left _ _)
  · have key : ∀ z' m o : ℚ,
        (m - o) / v.zoom * z' + (m - (m - o) * (z' / v.zoom)) = m := by
      intro z' m o
      field_simp
    unfold handleWheel toGraphSpace toScreen
    dsimp only
    rw [Prod.mk.injEq]
    exact ⟨key _ _ _, key _ _ _⟩

/-- Witness for C7 at a concrete viewport and wheel event. -/
theorem wheel_zoom_anchor_witness :
    toScreen (handleWheel ⟨1, 0, 0⟩ 1 10 20)
      (toGraphSpace ⟨1, 0, 0⟩ 10 20).1 (toGraphSpace ⟨1, 0, 0⟩ 10 20).2 =
      (10, 20) :=
  (wheel_zoom_anchor ⟨1, 0, 0⟩ 1 10 20 (by norm_num)).2.2.2.2.2

/-- The interaction-controller state the pointer-release handlers touch,
together with the simulation running flag that startSimulation sets. -/
structure InteractionState where
  isDragging : Bool
  isPanning : Bool
  dragNode : Option Nat
  hoveredNode : Option Nat
  simRunning : Bool
deriving DecidableEq, Inhabited

/-- Model of GraphView.handleMouseUp: when a drag was active the
simulation is restarted (running flag set), then the dragging, panning
and drag-node fields are cleared. -/
def handleMouseUp (s : InteractionState) : InteractionState :=
  { s with
    isDragging := false
    isPanning := false
    dragNode := none
    simRunning := if s.isDragging then true else s.simRunning }

/-- Model of GraphView.handleMouseLeave: the dragging, panning, drag-node
and hovered-node fields are cleared; the simulation is not restarted. -/
def handleMouseLeave (s : InteractionState) : InteractionState :=
  { s with
    isDragging := false
    isPanning := false
    dragNode := none
    hoveredNode := none }

/-- C9 (amended): both pointer-up and pointer-leave drive the controller
to the idle state (not dragging, not panning, no drag node); pointer-up
re-arms the force simulation when a drag was active, while pointer-leave
leaves the running flag untouched (it only additionally clears the
hovered node). -/
theorem pointer_release_transitions (s : InteractionState) :
    ((handleMouseUp s).isDragging = false ∧
      (handleMouseUp s).isPanning = false ∧
      (handleMouseUp s).dragNode = none) ∧
    ((handleMouseLeave s).isDragging = false ∧
      (handleMouseLeave s).isPanning = false ∧
      (handleMouseLeave s).dragNode = none ∧
      (handleMouseLeave s).hoveredNode = none) ∧
    (s.isDragging = true → (handleMouseUp s).simRunning = true) ∧
    (handleMouseLeave s).simRunning = s.simRunning := by
  refine ⟨⟨rfl, rfl, rfl⟩, ⟨rfl, rfl, rfl, rfl⟩, ?_, rfl⟩
  intro h
  simp [handleMouseUp, h]

/-- Witness for C9: releasing an active drag by pointer-up re-arms the
simulation even when its running flag was cleared. -/
theorem pointer_release_transitions_witness :
    (handleMouseUp ⟨true, false, some 0, none, false⟩).simRunning = true :=
  (pointer_release_transitions ⟨true, false, some 0, none, false⟩).2.2.1 rfl

/-- C9 counterexample: ending an active drag by pointer-leave does not
re-arm the force simulation: the running flag stays false. -/
theorem mouse_leave_no_rearm_cex :
    (handleMouseLeave ⟨true, false, some 0, none, false⟩).isDragging =
        false ∧
      (handleMouseLeave ⟨true, false, some 0, none, false⟩).simRunning =
        false := ⟨rfl, rfl⟩

/-- The geometric fields of a node read by getNodeAtPosition. -/
structure HitNode where
  x : ℚ
  y : ℚ
  radius : ℚ

instance : Inhabited HitNode := ⟨⟨0, 0, 0⟩⟩

/-- The per-node hit test of getNodeAtPosition: squared pointer distance
strictly below twice the squared radius. -/
def hitTest (n : HitNode) (x y : ℚ) : Prop :=
  (x - n.x) * (x - n.x) + (y - n.y) * (y - n.y) < n.radius * n.radius * 2

instance (n : HitNode) (x y : ℚ) : Decidable (hitTest n x y) := by
  unfold hitTest
  infer_instance

/-- Model of GraphView.getNodeAtPosition: walk the node array from its
last index down and return the first index whose hit test passes (the
source returns the node object itself; the index identifies it). -/
def getNodeAtPosition (nodes : List HitNode) (x y : ℚ) : Option Nat :=
  (List.range nodes.length).reverse.find? fun i =>
    decide (hitTest (nodes.getD i default) x y)

theorem find?_prefix_none {α : Type} (p : α → Bool) (a : α)
    (l₁ l₂ : List α) (hpre : ∀ x ∈ l₁, p x = false) (ha : p a = true) :
    (l₁ ++ a :: l₂).find? p = some a := by
  induction l₁ with
  | nil =>
      rw [List.nil_append]
      exact List.find?_cons_of_pos _ ha
  | cons b bs ih =>
      rw [List.cons_append, List.find?_cons_of_neg]
      · exact ih fun x hx => hpre x (List.mem_cons_of_mem b hx)
      · simp [hpre b (List.mem_cons_self b bs)]

theorem range_reverse_split {i n : Nat} (h : i < n) :
    (List.range n).reverse =
      (List.range' (i + 1) (n - (i + 1))).reverse ++
        i :: (List.range i).reverse := by
  have h1 : List.range n = List.range i ++ List.range' i (n - i) := by
    rw [List.range_eq_range', List.range_eq_range']
    have happ := List.range'_append 0 i (n - i) 1
    rw [Nat.zero_add, Nat.one_mul] at happ
    rw [show n - i + i = n by omega] at happ
    exact happ.symm
  have h2 : List.range' i (n - i) =
      i :: List.range' (i + 1) (n - (i + 1)) := by
    have he : n - i = (n - (i + 1)) + 1 := by omega
    rw [he, List.range'_succ]
  rw [h1, h2, List.reverse_append, List.reverse_cons, List.append_assoc,
    List.singleton_append]

theorem getNodeAtPosition_some {nodes : List HitNode} {x y : ℚ} {i : Nat}
    (h : getNodeAtPosition nodes x y = some i) :
    i < nodes.length ∧ hitTest (nodes.getD i default) x y := by
  unfold getNodeAtPosition at h
  have h1 := List.find?_some h
  have h2 := List.mem_of_find?_eq_some h
  rw [List.mem_reverse, List.mem_range] at h2
  rw [decide_eq_true_eq] at h1
  exact ⟨h2, h1⟩

theorem getNodeAtPosition_topmost {nodes : List HitNode} {x y : ℚ}
    {i : Nat} (hi : i < nodes.length)
    (hpass : hitTest (nodes.getD i default) x y)
    (hafter : ∀ j, i < j → j < nodes.length →
      ¬ hitTest (nodes.getD j default) x y) :
    getNodeAtPosition nodes x y = some i := by
  unfold getNodeAtPosition
  rw [range_reverse_split hi]
  refine find?_prefix_none _ i _ _ ?_ (by simpa using hpass)
  intro j hj
  rw [List.mem_reverse, List.mem_range'_1] at hj
  simpa using hafter j (by omega) (by omega)

/-- C8 (amended): hit-testing scans the node array in reverse insertion
order and returns the first node whose squared pointer distance is below
twice its squared radius (a radius-times-square-root-of-two threshold);
a pointer at a node's exact center selects that node whenever no node
later in insertion order also passes its own hit test there (zoom plays
no role: the test runs in graph space); a pointer at distance
radius times 1.5 from a node's center never selects that node. -/
theorem hit_test_selection (nodes : List HitNode) (x y : ℚ) (i : Nat)
    (hi : i < nodes.length) :
    (∀ k, getNodeAtPosition nodes x y = some k →
      k < nodes.length ∧ hitTest (nodes.getD k default) x y) ∧
    (x = (nodes.getD i default).x → y = (nodes.getD i default).y →
      (nodes.getD i default).radius ≠ 0 →
      (∀ j, i < j → j < nodes.length →
        ¬ hitTest (nodes.getD j default) x y) →
      getNodeAtPosition nodes x y = some i) ∧
    ((x - (nodes.getD i default).x) * (x - (nodes.getD i default).x) +
        (y - (nodes.getD i default).y) * (y - (nodes.getD i default).y) =
      (nodes.getD i default).radius * (3 / 2) *
        ((nodes.getD i default).radius * (3 / 2)) →
      getNodeAtPosition nodes x y ≠ some i) := by
  refine ⟨fun k hk => getNodeAtPosition_some hk, ?_, ?_⟩
  · intro hx hy hr hafter
    refine getNodeAtPosition_topmost hi ?_ hafter
    unfold hitTest
    rw [hx, hy]
    simpa using mul_self_pos.mpr hr
  · intro hdist hsel
    have hpass := (getNodeAtPosition_some hsel).2
    unfold hitTest at hpass
    rw [hdist] at hpass
    have hnn : 0 ≤ (nodes.getD i default).radius *
        (nodes.getD i default).radius := mul_self_nonneg _
    nlinarith [hpass, hnn]

/-- Witness for C8: a pointer at the only node's center selects it, and a
pointer at distance 12 = 8 times 1.5 from the center does not. -/
theorem hit_test_selection_witness :
    getNodeAtPosition [⟨5, 7, 8⟩] 5 7 = some 0 ∧
      getNodeAtPosition [⟨5, 7, 8⟩] 17 7 ≠ some 0 := by
  have h := hit_test_selection [⟨5, 7, 8⟩] 5 7 0 (by norm_num)
  have h' := hit_test_selection [⟨5, 7, 8⟩] 17 7 0 (by norm_num)
  constructor
  · refine h.2.1 rfl rfl (by norm_num) ?_
    intro j hj1 hj2
    simp only [List.length_singleton] at hj2
    omega
  · refine h'.2.2 ?_
    show ((17 : ℚ) - 5) * ((17 : ℚ) - 5) + ((7 : ℚ) - 7) * ((7 : ℚ) - 7) =
      (8 : ℚ) * (3 / 2) * ((8 : ℚ) * (3 / 2))
    norm_num

/-- C8 counterexample: with two coincident nodes, the pointer at the
first node's exact center selects the later-inserted node instead. -/
theorem hit_test_center_cex :
    getNodeAtPosition [⟨0, 0, 8⟩, ⟨0, 0, 8⟩] 0 0 = some 1 ∧
      (some 1 : Option Nat) ≠ some 0 := by
  constructor
  · refine getNodeAtPosition_topmost (by norm_num) ?_ ?_
    · show hitTest ⟨0, 0, 8⟩ 0 0
      norm_num [hitTest]
    · intro j hj1 hj2
      simp only [List.length_cons, List.length_nil] at hj2
      omega
  · decide
